import Mathlib

/-!
Verification model of the `hysios/todo` parsing/tree-building engine and the
tag-aware text compositor.

Modelling conventions:
* Go strings are modelled as `List Char` (rune sequences).  All concrete inputs
  considered here are ASCII, where Go's byte offsets coincide with rune offsets,
  so the parser's byte-indexed tag spans and the printer's rune-based slicing
  agree with this model.
* Go's regular expressions (RE2 with leftmost-first, Perl-style alternation and
  greediness semantics) are translated into explicit matching functions; each
  translation documents how the backtracking of the original pattern collapses
  into the given case analysis.
* Character classes follow Go: the regexp class `\s` is `[\t\n\f\r ]`
  (no vertical tab), while `strings.TrimSpace` uses `unicode.IsSpace`, which
  does include vertical tab; `\w` is `[0-9A-Za-z_]`; `\p{L}` is modelled on
  its ASCII fragment (letters).
* Go's `text[j:k]` string/rune slicing panics when `j > k` or `k > len(text)`;
  slicing is therefore modelled as an `Option`, with `none` for a panic, and
  functions that can reach a panicking slice return `Option` results.
-/

namespace Todo

/-- The Go regexp Perl class `\s` = `[\t\n\f\r ]`: space, tab, newline,
form feed, carriage return — and *not* vertical tab, which `\S` therefore
matches. -/
def isGoSpace (c : Char) : Bool :=
  c = ' ' || c = '\t' || c = '\n' || c = Char.ofNat 12 || c = '\r'

/-- `unicode.IsSpace` on the ASCII range (what `strings.TrimSpace` strips):
the regexp class plus vertical tab. -/
def isUniSpace (c : Char) : Bool :=
  c = ' ' || c = '\t' || c = '\n' || c = Char.ofNat 11 || c = Char.ofNat 12 || c = '\r'

/-- Character class `[\w\p{L}\d]` of the annotation regexp `reTag`
(`parser.go` line 330): word characters and letters; `\w` already contains
digits and `_`.  `\p{L}` is modelled on its ASCII fragment. -/
def isWordChar (c : Char) : Bool :=
  c.isAlphanum || c = '_'

/-- Character class `[\w\d\s:-]` of the parenthesized parameter group of
`reTag`. -/
def isParamChar (c : Char) : Bool :=
  isWordChar c || isGoSpace c || c = ':' || c = '-'

/-- A line is skipped by `Parse` when `strings.TrimSpace(line)` is empty
(`parser.go` line 106). -/
def isBlank (line : List Char) : Bool := line.all isUniSpace

/-- The pending-box glyph vocabulary: `box` (`parser.go` line 195) split on
spaces.  `enc` escapes `+ [ ]`, so every entry is a literal alternative of the
line regexp, in this order. -/
def boxTokens : List (List Char) :=
  [['-'], ['❍'], ['❑'], ['■'], ['⬜'], ['□'], ['☐'], ['▪'], ['▫'],
   ['–'], ['—'], ['≡'], ['→'], ['›'], ['[', ']']]

/-- The done glyph vocabulary: `done` (`parser.go` line 196) split on spaces. -/
def doneTokens : List (List Char) :=
  [['✔'], ['✓'], ['☑'], ['+'], ['[', 'x', ']'], ['[', 'X', ']'], ['[', '+', ']']]

/-- The cancel glyph vocabulary: `cancel` (`parser.go` line 197) split on
spaces. -/
def cancelTokens : List (List Char) :=
  [['✘'], ['x'], ['X'], ['[', '-', ']']]

/-- Try literal token alternatives in order; on success return the token and
the rest of the line.  (In `buildLineRegexp` each alternative is a literal, and
no two alternatives can match the same line prefix, so committing to the first
prefix match is exactly RE2's leftmost-first alternation here.) -/
def stripTok : List (List Char) → List Char → Option (List Char × List Char)
  | [], _ => none
  | t :: alts, cs =>
    if t.isPrefixOf cs then some (t, cs.drop t.length) else stripTok alts cs

/-- The `\[\s+\]` alternative appended in `buildLineRegexp` (`parser.go`
line 222): `[`, then a maximal nonempty whitespace run, then `]`.  (Greedy
`\s+` with backtracking succeeds iff the maximal run is directly followed by
`]`, since giving back characters only exposes more whitespace.) -/
def bracketWs (cs : List Char) : Option (List Char × List Char) :=
  match cs with
  | c :: rest =>
    if c = '[' then
      let ws := rest.takeWhile isGoSpace
      if ws.isEmpty then none
      else
        match rest.drop ws.length with
        | d :: r2 => if d = ']' then some ('[' :: ws ++ [']'], r2) else none
        | [] => none
    else none
  | [] => none

/-- The token part of `reLine`: alternatives in the order `buildLineRegexp`
joins them — box tokens, `\[\s+\]`, done tokens, cancel tokens. -/
def matchToken (cs : List Char) : Option (List Char × List Char) :=
  match stripTok boxTokens cs with
  | some r => some r
  | none =>
    match bracketWs cs with
    | some r => some r
    | none =>
      match stripTok doneTokens cs with
      | some r => some r
      | none => stripTok cancelTokens cs

/-- `reLine` = `^(<token alternatives>)\s+(.*?)$` applied to the pure line:
a token, a nonempty whitespace run (greedy `\s+`), then the captured remainder
(`.` cannot match a newline, hence the guard).  Returns
(token, whitespace run, remainder). -/
def matchLine (cs : List Char) : Option (List Char × List Char × List Char) :=
  match matchToken cs with
  | none => none
  | some (tok, rest) =>
    let ws := rest.takeWhile isGoSpace
    if ws.isEmpty then none
    else
      let txt := rest.drop ws.length
      if txt.contains '\n' then none else some (tok, ws, txt)

/-- The negated character class of `reTitle` (`buildTitleRegexp`): every
character of the concatenation of all escaped glyph tokens.  The final
fragment `\[-\]` is, inside a class, the range `[`–`]`, which contributes
`[`, `\` and `]`. -/
def glyphClassChars : List Char :=
  ['-', '❍', '❑', '■', '⬜', '□', '☐', '▪', '▫', '–', '—', '≡', '→', '›',
   '[', ']', '✔', '✓', '☑', '+', 'x', 'X', '✘', '\\']

/-- `reTitle` = `^[^<glyph chars>].*?:$`: a first character outside the glyph
class, at least one more character, a final `:`, and no newline in between
(`.` cannot cross `\n`). -/
def isTitle (cs : List Char) : Bool :=
  match cs with
  | [] => false
  | c :: rest =>
    !(glyphClassChars.contains c) && !rest.isEmpty &&
      rest.getLast? == some ':' && !(rest.dropLast.contains '\n')

inductive ItemType where
  | itText
  | itItem
  | itTitle
deriving DecidableEq, Repr

inductive ItemStatus where
  | stUnknown
  | stPending
  | stStarted
  | stDone
  | stCancel
  | stArchive
deriving DecidableEq, Repr

inductive TagType where
  | tagNormal
  | tagTime
  | tagDone
  | tagStarted
  | tagLasted
  | tagEst
  | tagCritical
  | tagHigh
  | tagLow
  | tagToday
  | tagBold
  | tagItalic
  | tagDeleted
  | tagCode
  | tagUnknown
deriving DecidableEq, Repr

/-- `tokenStatus` (`parser.go` line 250): box tokens plus the literal `[ ]`
are Pending, done tokens Done, cancel tokens Cancel, anything else Pending. -/
def tokenStatus (tok : List Char) : ItemStatus :=
  if (boxTokens ++ [['[', ' ', ']']]).contains tok then .stPending
  else if doneTokens.contains tok then .stDone
  else if cancelTokens.contains tok then .stCancel
  else .stPending

/-- `ident` (`parser.go` line 275): sum the widths of the leading run of
spaces (width 1) and tabs (given width), and return that indent together with
the rest of the line. -/
def identOf (width : Nat) : List Char → Nat × List Char
  | [] => (0, [])
  | c :: cs =>
    if c = ' ' then
      let (j, r) := identOf width cs
      (j + 1, r)
    else if c = '\t' then
      let (j, r) := identOf width cs
      (j + width, r)
    else (0, c :: cs)

/-- A tag span: `Start`/`Stop` are offsets into the node text at extraction
time (Go `int`, hence `Int` — the printer later shifts them, possibly below
zero), `typ` the classified kind, `text` the matched literal. -/
structure Tag where
  start : Int
  stop : Int
  typ : TagType
  text : List Char
deriving DecidableEq, Repr

/-- `tagType` (`parser.go` line 334): strip a leading `@` (no `@` means
Normal), then classify by string prefix in source order.  (Go would panic on
an empty argument; callers always pass a nonempty match.) -/
def tagTypeOf (tag : List Char) : TagType :=
  match tag with
  | '@' :: t =>
    if (String.toList "done").isPrefixOf t then .tagDone
    else if (String.toList "started").isPrefixOf t then .tagStarted
    else if (String.toList "est").isPrefixOf t then .tagEst
    else if (String.toList "lasted").isPrefixOf t then .tagLasted
    else if (String.toList "critical").isPrefixOf t then .tagCritical
    else if (String.toList "high").isPrefixOf t then .tagHigh
    else if (String.toList "low").isPrefixOf t then .tagLow
    else if (String.toList "today").isPrefixOf t then .tagToday
    else .tagNormal
  | _ => .tagNormal

/-- `formatTag` (`parser.go` line 384): classify a format literal by its
first character (`*` bold, `_` italic, `~` deleted, backtick code, otherwise
Unknown).  (Go would panic on an empty argument; callers always pass a
nonempty match.) -/
def formatTagOf (txt : List Char) : TagType :=
  match txt with
  | c :: _ =>
    if c = '*' then .tagBold
    else if c = '_' then .tagItalic
    else if c = '~' then .tagDeleted
    else if c = Char.ofNat 96 then .tagCode
    else .tagUnknown
  | [] => .tagUnknown

/-- The `\([\w\d\s:-]+\)` alternative of `reTag`, anchored at the head of
`cs`; returns the total matched length.  The greedy `+` takes the maximal run
of class characters; `)` is outside the class, so backtracking to a shorter
run only exposes another class character, never `)` — the group matches iff
the maximal nonempty run is directly followed by `)`. -/
def parenRun (cs : List Char) : Option Nat :=
  match cs with
  | c :: rest =>
    if c = '(' then
      let run := rest.takeWhile isParamChar
      if run.isEmpty then none
      else
        match rest.drop run.length with
        | d :: _ => if d = ')' then some (run.length + 2) else none
        | [] => none
    else none
  | [] => none

/-- `reTag` = `@[\w\p{L}\d]+(\([\w\d\s:-]+\)|\S)` anchored at the head of
`cs`; returns the matched length.  Backtracking collapses as follows: the
greedy word run `w` is tried at full length first — the paren alternative,
then `\S` (which matches any non-space character directly after the run);
if both fail, the run gives back one character, and since word characters are
non-space, `\S` then matches the run's own last character, so the whole match
is `@` plus the run — possible only when the run has at least two characters.
A shorter run is never reached. -/
def tagMatchLen (cs : List Char) : Option Nat :=
  match cs with
  | c0 :: rest =>
    if c0 = '@' then
      let w := rest.takeWhile isWordChar
      if w.isEmpty then none
      else
        let after := rest.drop w.length
        match parenRun after with
        | some m => some (1 + w.length + m)
        | none =>
          match after with
          | c :: _ =>
            if !isGoSpace c then some (1 + w.length + 1)
            else if 2 ≤ w.length then some (1 + w.length)
            else none
          | [] => if 2 ≤ w.length then some (1 + w.length) else none
    else none
  | [] => none

/-- Non-greedy search of `closeLen`'s argument for the closing delimiter `c`:
number of characters up to and including the first `c`, failing at a newline
(`.` in `.*?` cannot cross `\n`) or at the end. -/
def closeLen (c : Char) : List Char → Option Nat
  | [] => none
  | d :: rest =>
    if d = c then some 1
    else if d = '\n' then none
    else (closeLen c rest).map (· + 1)

/-- `reFmtTxt` = `\*.*?\*|` backtick pair `|~.*?~|_.*?_` anchored at the head
of `cs`; returns the matched length.  The four alternatives open with four
distinct characters, so at most one can start at a given position; it matches
up to the nearest closing occurrence of the same character. -/
def fmtMatchLen (cs : List Char) : Option Nat :=
  match cs with
  | c :: rest =>
    if c = '*' || c = Char.ofNat 96 || c = '~' || c = '_' then
      (closeLen c rest).map (· + 1)
    else none
  | [] => none

/-- `FindAllStringIndex(text, -1)`: scan left to right; at each position try
the anchored match; on a match of length `e` record `[pos, pos+e)` with its
literal and resume at `pos+e`, otherwise advance one position.  The fuel is
the number of remaining scan steps; every pattern here matches at least one
character, so `length + 1` steps (supplied by `findSpans`) always suffice. -/
def scanAux (mlen : List Char → Option Nat) :
    Nat → Nat → List Char → List (Nat × Nat × List Char)
  | 0, _, _ => []
  | k + 1, pos, cs =>
    match mlen cs with
    | some e => (pos, pos + e, cs.take e) :: scanAux mlen k (pos + e) (cs.drop e)
    | none =>
      match cs with
      | [] => []
      | _ :: rest => scanAux mlen k (pos + 1) rest

/-- Shared body of `parseTag` and `parseFormatText`: all matches of the
pattern, each as a Tag with its offsets, classified literal and literal
text. -/
def findSpans (mlen : List Char → Option Nat) (tof : List Char → TagType)
    (text : List Char) : List Tag :=
  (scanAux mlen (text.length + 1) 0 text).map fun m =>
    ⟨(m.1 : Int), (m.2.1 : Int), tof m.2.2, m.2.2⟩

/-- `parseTag` (`parser.go` line 362): annotation spans of `reTag`, in match
order. -/
def parseTagList (text : List Char) : List Tag :=
  findSpans tagMatchLen tagTypeOf text

/-- `parseFormatText` (`parser.go` line 397): format spans of `reFmtTxt`, in
match order. -/
def parseFmtList (text : List Char) : List Tag :=
  findSpans fmtMatchLen formatTagOf text

/-- A node (`Todoitem`).  The fields never consulted by the modelled code
paths (`StatusTimes`, `Assignees`) are omitted; the `Items` children list and
the `parent` back-pointer live in the tree structure below; `offset` is the
render-time offset set by `SetOffset`. -/
structure Item where
  ident : Nat
  typ : ItemType
  token : List Char
  text : List Char
  status : ItemStatus
  tags : List Tag
  offset : Int
deriving DecidableEq, Repr

/-- `parseLine` (`parser.go` line 295): compute the indent and pure line,
classify as Item (line regexp), Title (title regexp) or Text (fallback; the
zero value of `ItemType` is Text and of `ItemStatus` is Unknown), then run
both tag-extraction passes on the resulting text, annotation spans first. -/
def parseLine (line : List Char) : Item :=
  let idtpl := identOf 4 line
  let idt := idtpl.1
  let pl := idtpl.2
  let base : Item :=
    match matchLine pl with
    | some (tok, _, rest) =>
      { ident := idt, typ := .itItem, token := tok, text := rest,
        status := tokenStatus tok, tags := [], offset := 0 }
    | none =>
      if isTitle pl then
        { ident := idt, typ := .itTitle, token := [], text := pl,
          status := .stUnknown, tags := [], offset := 0 }
      else
        { ident := idt, typ := .itText, token := [], text := pl,
          status := .stUnknown, tags := [], offset := 0 }
  { base with tags := parseTagList base.text ++ parseFmtList base.text }

/-- The document forest: each `Todoitem` with its `Items` children list.
The `parent` back-pointer of the Go struct is represented positionally: a
node is addressed by its path of child indices from the root list, and its
parent is the node addressed by the path without its last component. -/
inductive Tree where
  | node : Item → List Tree → Tree
deriving Repr

def Tree.data : Tree → Item
  | .node d _ => d

def Tree.kids : Tree → List Tree
  | .node _ cs => cs

mutual

def preorderT : Tree → List Item
  | .node d cs => d :: preorderF cs

/-- Depth-first pre-order traversal of a forest, the order in which
`Todoitem.Printer` visits nodes. -/
def preorderF : List Tree → List Item
  | [] => []
  | t :: ts => preorderT t ++ preorderF ts

end

/-- Node addressed by a path of child indices (first component indexes the
root list). -/
def getAt : List Nat → List Tree → Option Tree
  | [], _ => none
  | [i], ts => ts[i]?
  | i :: j :: p, ts =>
    match ts[i]? with
    | some t => getAt (j :: p) t.kids
    | none => none

def modifyIdx : List Tree → Nat → (Tree → Tree) → List Tree
  | [], _, _ => []
  | t :: ts, 0, f => f t :: ts
  | t :: ts, n + 1, f => t :: modifyIdx ts n f

/-- `Todoitem.Add` (`parser.go` line 120): append a fresh leaf for `it` to a
node's children list (the child's parent pointer is the position itself). -/
def appendChild (it : Item) : Tree → Tree
  | .node d cs => .node d (cs ++ [.node it []])

/-- Apply `appendChild` at the node addressed by the path.  An invalid path
leaves the forest unchanged (unreachable from `Parse`, whose paths always
address nodes). -/
def insertAtPath : List Nat → Item → List Tree → List Tree
  | [], _, ts => ts
  | [i], it, ts => modifyIdx ts i (appendChild it)
  | i :: j :: p, it, ts =>
    modifyIdx ts i fun t => .node t.data (insertAtPath (j :: p) it t.kids)

def kidsCountAt (q : List Nat) (ts : List Tree) : Nat :=
  match getAt q ts with
  | some t => t.kids.length
  | none => 0

/-- `parentAdd` (`parser.go` line 162): with no parent, append the node to
the root list; otherwise `parent.Add(node)`.  Also returns the path of the
inserted node (the appended position). -/
def parentAdd (p : Option (List Nat)) (it : Item) (ts : List Tree) :
    List Tree × List Nat :=
  match p with
  | none => (ts ++ [.node it []], [ts.length])
  | some q => (insertAtPath q it ts, q ++ [kidsCountAt q ts])

/-- `getParent` (`parser.go` line 154): the parent pointer of the given node,
`nil` for `nil` or for a root.  Positionally: drop the last path component. -/
def pathUp : Option (List Nat) → Option (List Nat)
  | none => none
  | some q => if q.length ≤ 1 then none else some q.dropLast

/-- `parseNode` (`parser.go` line 170) for an already classified node:
first node to the root list; a deeper node under `prev` which becomes the
tracked parent; a shallower node under the tracked parent's own parent
(which becomes the tracked parent); an equal node under the tracked parent.
Returns (tracked parent, inserted node's path, forest); `parseLine` never
returns an error, so the error path of the Go function is dead. -/
def parseNode (prevP parP : Option (List Nat)) (it : Item) (ts : List Tree) :
    Option (List Nat) × Option (List Nat) × List Tree :=
  match prevP with
  | none =>
    let r := parentAdd none it ts
    (parP, some r.2, r.1)
  | some qp =>
    match getAt qp ts with
    | none => (parP, none, ts)  -- unreachable: `prev` always points at a node
    | some pt =>
      if pt.data.ident < it.ident then
        let r := parentAdd (some qp) it ts
        (some qp, some r.2, r.1)
      else if it.ident < pt.data.ident then
        let par' := pathUp parP
        let r := parentAdd par' it ts
        (par', some r.2, r.1)
      else
        let r := parentAdd parP it ts
        (parP, some r.2, r.1)

/-- Parser loop state: (`prev` node path, tracked `parent` path, forest). -/
abbrev PState := Option (List Nat) × Option (List Nat) × List Tree

/-- One iteration of the scan loop of `Parse` (`parser.go` line 104): skip a
blank line, otherwise classify and attach, and the inserted node becomes
`prev`. -/
def parseStep (st : PState) (line : List Char) : PState :=
  if isBlank line then st
  else
    let r := parseNode st.1 st.2.1 (parseLine line) st.2.2
    (r.2.1, r.1, r.2.2)

/-- `Parse` (`parser.go` line 93) on the sequence of lines delivered by the
scanner: fold the per-line step from the empty document. -/
def Parse (lines : List (List Char)) : List Tree :=
  (lines.foldl parseStep (none, none, [])).2.2

/-- An input stream as the scanner presents it: the successfully read lines,
and whether the underlying reader then fails with an I/O error (`true`)
rather than reaching a clean end of input. -/
structure InStream where
  lines : List (List Char)
  readErr : Bool

/-- `Parse` on a stream: `for s.Scan()` consumes exactly the successfully
read lines (`Scan` returns `false` both at EOF and on a read error),
`parseNode` never yields a non-nil error, and `s.Err()` is never consulted
after the loop — so the function returns the document built from the lines
read so far, paired with a `nil` error, regardless of `readErr`. -/
def ParseStream (s : InStream) : List Tree × Option Unit :=
  (Parse s.lines, none)

/-- Printer visual categories (`printer` package `ItemType`). -/
inductive Cl where
  | clBase
  | clItem
  | clTitle
  | clText
  | clDone
  | clCancel
  | clTag
  | clTime
  | clUser
  | clHighlight
  | clCustom1
  | clCustom2
  | clCustom3
  | clCustom4
  | clBold
  | clItalic
  | clDeleted
deriving DecidableEq, Repr

/-- `tagClr`: visual category of a tag kind. -/
def tagClr : TagType → Cl
  | .tagNormal => .clTag
  | .tagCritical => .clCustom1
  | .tagHigh => .clCustom2
  | .tagLow => .clCustom3
  | .tagToday => .clCustom4
  | .tagBold => .clBold
  | .tagItalic => .clItalic
  | .tagDeleted => .clDeleted
  | .tagCode => .clHighlight
  | _ => .clTag

/-- A fragment of styled output: `c.Sprint(s)` is modelled as the pair of the
visual category and the emitted text. -/
abbrev Chunk := Cl × List Char

/-- Go string slicing `text[j:k]`: defined when `j ≤ k ≤ len`, a runtime
panic (modelled as `none`) otherwise. -/
def slice (cs : List Char) (j k : Nat) : Option (List Char) :=
  if j ≤ k ∧ k ≤ cs.length then some ((cs.take k).drop j) else none

/-- The scan loop of `colorWithTags` (`printer.go` line 189, pipeline
version).  State: scan position `i`, pending-emit mark `j`, remaining tag
list whose head is the current tag — `shiftTag` pops the head and shifts it
by `ofs`, so the head's bounds are read shifted.  One fuel unit per loop
iteration; every iteration advances `i` or pops a tag, so the fuel supplied
by `colorWithTags` is never exhausted (`none` on exhaustion is unreachable
from there).  Branches, in source order: loop exit at `i ≥ len`; `tag == nil`
emits the tail `text[j:]` and returns; "in tag" (`Start ≤ i ≤ Stop`) emits
the tag's literal with the tag's colour and continues at `Stop` with the next
tag; "ear" (`i < Start`) emits `text[j:Start]` — a panicking slice when
`Start > len` — and retries the same tag at `Start + 1`; "after"
(`i > Stop`) pops the tag without emitting and sets `j := i`. -/
def goAux (text : List Char) (c : Cl) (ofs : Int) :
    Nat → Nat → Nat → List Tag → Option (List Chunk)
  | 0, _, _, _ => none
  | k + 1, i, j, tags =>
    if i < text.length then
      match tags with
      | [] => (slice text j text.length).map fun s => [(c, s)]
      | t :: rest =>
        let s := t.start + ofs
        let e := t.stop + ofs
        if s ≤ (i : Int) ∧ (i : Int) ≤ e then
          (goAux text c ofs k e.toNat e.toNat rest).map
            fun l => (tagClr t.typ, t.text) :: l
        else if (i : Int) < s then
          match slice text j s.toNat with
          | none => none
          | some seg =>
            (goAux text c ofs k (s.toNat + 1) j (t :: rest)).map
              fun l => (c, seg) :: l
        else
          goAux text c ofs k (i + 1) i rest
    else some []

/-- `colorWithTags` (`printer.go` line 173): an empty span list emits the
whole text with the node colour; otherwise run the scan loop from position 0
(the initial `shiftTag` pop is the loop head's first read). -/
def colorWithTags (text : List Char) (c : Cl) (tags : List Tag) (ofs : Int) :
    Option (List Chunk) :=
  if tags.length = 0 then some [(c, text)]
  else goAux text c ofs (text.length + tags.length + 1) 0 0 tags

/-- The plain, colourless per-node print of `Printer.print` (`printer.go`
line 235): indent spaces, then for an Item the token, one space and the text,
otherwise just the text. -/
def renderItemLine (it : Item) : List Char :=
  if it.typ = .itItem then
    List.replicate it.ident ' ' ++ it.token ++ [' '] ++ it.text
  else
    List.replicate it.ident ' ' ++ it.text

/-- `Printer.WriteTo` with no pipes installed: `printNodePipesWithoutColor`
copies each node, applies no transform, and plainly prints it, over the
pre-order traversal of every root. -/
def renderLines (ts : List Tree) : List (List Char) :=
  (preorderF ts).map renderItemLine

/-- `strconv.Itoa` (restricted to the naturals the parser produces). -/
def itoa (n : Nat) : List Char := Nat.toDigits 10 n

/-- `strconv.Atoi` on a digit string (the regexp group is all digits, and
inputs are assumed small enough not to overflow Go's `int`). -/
def atoiDigits (ds : List Char) : Nat :=
  ds.foldl (fun a c => a * 10 + (c.toNat - '0'.toNat)) 0

/-- The capture group of `numRe` = `^(\d+).` — the dot is unescaped, so it
matches any character except newline.  The greedy `\d+` first takes the
maximal digit run; if nothing (or a newline) follows, it gives back one digit
— which the dot then matches — so an all-digit text of length ≥ 2 matches
with group "all but the last digit", while a single digit does not match. -/
def numMatch (text : List Char) : Option (List Char) :=
  let run := text.takeWhile Char.isDigit
  if run.isEmpty then none
  else
    match text[run.length]? with
    | some c =>
      if c ≠ '\n' then some run
      else if 2 ≤ run.length then some run.dropLast else none
    | none => if 2 ≤ run.length then some run.dropLast else none

/-- One application of the `regeneratorNumber` pipe (`root.go` line 136) to a
node, threading the shared counter `num`.  Title/Text nodes pass through with
the counter unchanged.  For an Item without a `numRe` match, `"<num>. "` is
prepended and the offset set to its length.  With a match: `_num` is the
parsed group, `oldns`/`ns` its and the counter's decimal text (the counter
read *before* advancing), the counter advances when `_num > num`, and
`ofs = len(ns) − len(oldns)`; for `ofs > 0` the text becomes
`"<num>." ++ text[len(ns):]`, for `ofs < 0` the text is left unchanged (the
branch body is commented out in the source), for `ofs = 0` it becomes
`"<num>" ++ text[len(ns):]` — `num` here read after the advance.  The counter
then increments.  Both rewriting branches execute the rune slice
`string(r[len(ns):])`, which panics when `len(ns)` exceeds the text's rune
length — reachable for `ofs > 0` when the counter's decimal width exceeds
the text length (e.g. counter 1001 on the text `55`) — so the result is an
`Option`, `none` modelling that panic.  (`strconv.Atoi` overflow on an
oversized digit group aborts via `log.Fatal` and is outside this model.) -/
def numberStep (num : Nat) (it : Item) : Option (Nat × Item) :=
  if it.typ = .itItem then
    match numMatch it.text with
    | none =>
      let pfx := itoa num ++ ['.', ' ']
      some (num + 1, { it with text := pfx ++ it.text, offset := (pfx.length : Int) })
    | some ds =>
      let en := atoiDigits ds
      let oldns := itoa en
      let ns := itoa num
      let num' := if num < en then en else num
      let ofs : Int := (ns.length : Int) - (oldns.length : Int)
      if 0 < ofs then
        if ns.length ≤ it.text.length then
          some (num' + 1, { it with text := itoa num' ++ ['.'] ++ it.text.drop ns.length,
                                    offset := ofs })
        else none
      else if ofs < 0 then
        some (num' + 1, { it with offset := ofs })
      else
        if ns.length ≤ it.text.length then
          some (num' + 1, { it with text := itoa num' ++ it.text.drop ns.length,
                                    offset := ofs })
        else none
  else some (num, it)

/-- The auto-numbering pipe over a traversal: `printNodePipes` applies the
pipe to (a copy of) each visited node in pre-order, and the closure's `num`
is shared across all calls of one `Print`/`WriteTo` run; a panic in any
application aborts the whole run. -/
def numberRun (num : Nat) : List Item → Option (Nat × List Item)
  | [] => some (num, [])
  | it :: rest =>
    match numberStep num it with
    | none => none
    | some r1 =>
      match numberRun r1.1 rest with
      | none => none
      | some r2 => some (r2.1, r1.2 :: r2.2)

/-- Modelled from the spec: the notion of a leading numbered prefix used by
§4.4 — a nonempty digit run followed by `". "` (dot, space).  This is the
spec's wording; the code's `numRe` accepts a digit run followed by *any*
character.  Used only to state claims against the code's behaviour. -/
def specNumPfx (text : List Char) : Bool :=
  let run := text.takeWhile Char.isDigit
  !run.isEmpty && text[run.length]? == some '.' &&
    text[run.length + 1]? == some ' '

/-- Shorthand for writing concrete inputs. -/
def str (x : String) : List Char := x.toList

/-- A path lies on the rightmost spine of a forest: it is nonempty, each of
its components is the last index at its level, and it addresses a node.
Appending a child at such a path extends the pre-order traversal at its
end. -/
def isRS : List Nat → List Tree → Bool
  | [], _ => false
  | [i], ts => i + 1 == ts.length
  | i :: j :: p, ts =>
    (i + 1 == ts.length) &&
      match ts[i]? with
      | some t => isRS (j :: p) t.kids
      | none => false

/-- Invariant of the `Parse` loop state: before the first node the forest is
empty and no parent is tracked; afterwards `prev` addresses the node inserted
last — which lies at the end of the rightmost spine — and the tracked parent
is exactly `prev`'s parent (`none` when `prev` is a root). -/
def INVp (st : PState) : Prop :=
  match st.1 with
  | none => st.2.1 = none ∧ st.2.2 = []
  | some q => isRS q st.2.2 = true ∧ st.2.1 = pathUp (some q)

/-- A parent position is sound when it is either the root list or a path on
the rightmost spine. -/
def okPar (p : Option (List Nat)) (ts : List Tree) : Prop :=
  match p with
  | none => True
  | some q => isRS q ts = true

/-- A bare Text node, used to state concrete tree-builder instances. -/
def sampleText (t : List Char) (n : Nat) : Item :=
  ⟨n, .itText, [], t, .stUnknown, [], 0⟩

theorem preorderT_node (d : Item) (cs : List Tree) :
    preorderT (.node d cs) = d :: preorderF cs := rfl

theorem preorderF_append (xs ys : List Tree) :
    preorderF (xs ++ ys) = preorderF xs ++ preorderF ys := by
  induction xs with
  | nil => rfl
  | cons t ts ih => simp [preorderF, ih]

theorem preorderT_appendChild (it : Item) (t : Tree) :
    preorderT (appendChild it t) = preorderT t ++ [it] := by
  cases t with
  | node d cs =>
    show preorderT (.node d (cs ++ [.node it []])) = _
    rw [preorderT_node, preorderT_node, preorderF_append]
    rfl

theorem modifyIdx_length (ts : List Tree) (i : Nat) (f : Tree → Tree) :
    (modifyIdx ts i f).length = ts.length := by
  induction ts generalizing i with
  | nil => rfl
  | cons t ts ih =>
    cases i with
    | zero => rfl
    | succ n => simp [modifyIdx, ih]

theorem get?_modifyIdx_self (ts : List Tree) (i : Nat) (f : Tree → Tree) :
    (modifyIdx ts i f)[i]? = ts[i]?.map f := by
  induction ts generalizing i with
  | nil => rfl
  | cons t ts ih =>
    cases i with
    | zero => simp [modifyIdx]
    | succ n => simpa [modifyIdx] using ih n

theorem preorderF_modify_last (it : Item) :
    ∀ (ts : List Tree) (i : Nat) (f : Tree → Tree),
      i + 1 = ts.length →
      (∀ t, ts[i]? = some t → preorderT (f t) = preorderT t ++ [it]) →
      preorderF (modifyIdx ts i f) = preorderF ts ++ [it] := by
  intro ts
  induction ts with
  | nil => intro i f h _; simp at h
  | cons t ts ih =>
    intro i f h hf
    cases i with
    | zero =>
      have hts : ts = [] := by
        have : ts.length = 0 := by simpa using h.symm
        exact List.length_eq_zero.mp this
      subst hts
      have := hf t rfl
      simp [modifyIdx, preorderF, this]
    | succ n =>
      have hlen : n + 1 = ts.length := by simpa using h
      have := ih n f hlen (fun u hu => hf u (by simpa using hu))
      simp [modifyIdx, preorderF, this]

theorem isRS_getAt : ∀ (q : List Nat) (ts : List Tree),
    isRS q ts = true → ∃ t, getAt q ts = some t
  | [], ts, h => by simp [isRS] at h
  | [i], ts, h => by
    have hlen : i + 1 = ts.length := by simpa [isRS] using h
    cases hg : ts[i]? with
    | none =>
      have := List.getElem?_eq_none_iff.mp hg
      omega
    | some t => exact ⟨t, hg⟩
  | i :: j :: p, ts, h => by
    rw [isRS, Bool.and_eq_true] at h
    cases hg : ts[i]? with
    | none => rw [hg] at h; simp at h
    | some u =>
      rw [hg] at h
      obtain ⟨t, ht⟩ := isRS_getAt (j :: p) u.kids h.2
      exact ⟨t, by simp [getAt, hg, ht]⟩

theorem isRS_dropLast : ∀ (q : List Nat) (ts : List Tree),
    isRS q ts = true → 2 ≤ q.length → isRS q.dropLast ts = true
  | [], _, h, _ => by simp [isRS] at h
  | [_], _, _, h2 => by simp at h2
  | [i, j], ts, h, _ => by
    rw [isRS, Bool.and_eq_true] at h
    simpa [isRS] using h.1
  | i :: j :: k :: p, ts, h, _ => by
    rw [isRS, Bool.and_eq_true] at h
    cases hg : ts[i]? with
    | none => rw [hg] at h; simp at h
    | some u =>
      rw [hg] at h
      have := isRS_dropLast (j :: k :: p) u.kids h.2 (by simp)
      show isRS (i :: (j :: k :: p).dropLast) ts = true
      have hd : (j :: k :: p).dropLast = j :: (k :: p).dropLast := rfl
      rw [hd]
      rw [isRS, Bool.and_eq_true, hg]
      exact ⟨h.1, by rw [hd] at this; exact this⟩

theorem getAt_insertAtPath_self : ∀ (q : List Nat) (it : Item) (ts : List Tree) (t : Tree),
    getAt q ts = some t → getAt q (insertAtPath q it ts) = some (appendChild it t)
  | [], _, _, _, h => by simp [getAt] at h
  | [i], it, ts, t, h => by
    show (modifyIdx ts i (appendChild it))[i]? = _
    rw [get?_modifyIdx_self]
    rw [show ts[i]? = some t from h]
    rfl
  | i :: j :: p, it, ts, t, h => by
    cases hg : ts[i]? with
    | none => rw [getAt, hg] at h; exact absurd h (by simp)
    | some u =>
      rw [getAt, hg] at h
      have ih := getAt_insertAtPath_self (j :: p) it u.kids t h
      show getAt (i :: j :: p) (modifyIdx ts i _) = _
      rw [getAt, get?_modifyIdx_self, hg]
      simpa using ih

theorem isRS_insert_extend : ∀ (q : List Nat) (it : Item) (ts : List Tree) (t : Tree),
    isRS q ts = true → getAt q ts = some t →
    isRS (q ++ [t.kids.length]) (insertAtPath q it ts) = true
  | [], _, _, _, h, _ => by simp [isRS] at h
  | [i], it, ts, t, h, hg => by
    have hlen : i + 1 = ts.length := by simpa [isRS] using h
    show isRS [i, t.kids.length] (modifyIdx ts i (appendChild it)) = true
    rw [isRS, Bool.and_eq_true, get?_modifyIdx_self]
    refine ⟨by simp [modifyIdx_length, hlen], ?_⟩
    rw [show ts[i]? = some t from hg]
    cases t with
    | node d cs => simp [appendChild, isRS, Tree.kids]
  | i :: j :: p, it, ts, t, h, hg => by
    rw [isRS, Bool.and_eq_true] at h
    cases hu : ts[i]? with
    | none => rw [hu] at h; simp at h
    | some u =>
      rw [hu] at h
      rw [getAt, hu] at hg
      have ih := isRS_insert_extend (j :: p) it u.kids t h.2 hg
      show isRS (i :: ((j :: p) ++ [t.kids.length])) (modifyIdx ts i _) = true
      have hshape : ∃ x xs, (j :: p) ++ [t.kids.length] = x :: xs := ⟨j, p ++ [t.kids.length], rfl⟩
      obtain ⟨x, xs, hx⟩ := hshape
      rw [hx, isRS, Bool.and_eq_true, get?_modifyIdx_self, hu]
      refine ⟨by simp [modifyIdx_length, h.1], ?_⟩
      rw [← hx]
      simpa [Tree.kids] using ih

theorem preorderF_insert_rs (it : Item) : ∀ (q : List Nat) (ts : List Tree),
    isRS q ts = true → preorderF (insertAtPath q it ts) = preorderF ts ++ [it]
  | [], ts, h => by simp [isRS] at h
  | [i], ts, h => by
    have hlen : i + 1 = ts.length := by simpa [isRS] using h
    exact preorderF_modify_last it ts i _ hlen
      (fun t _ => preorderT_appendChild it t)
  | i :: j :: p, ts, h => by
    rw [isRS, Bool.and_eq_true] at h
    have hlen : i + 1 = ts.length := by simpa using h.1
    refine preorderF_modify_last it ts i _ hlen ?_
    intro t hg
    rw [hg] at h
    cases t with
    | node d cs =>
      have ih := preorderF_insert_rs it (j :: p) cs (by simpa [Tree.kids] using h.2)
      simp [Tree.data, Tree.kids, preorderT_node, ih]

theorem isRS_append_root (it : Item) (ts : List Tree) :
    isRS [ts.length] (ts ++ [.node it []]) = true := by
  simp [isRS]

theorem preorderF_append_root (it : Item) (ts : List Tree) :
    preorderF (ts ++ [.node it []]) = preorderF ts ++ [it] := by
  rw [preorderF_append]; rfl

theorem isRS_ne_nil {q : List Nat} {ts : List Tree} (h : isRS q ts = true) : q ≠ [] := by
  intro hq; subst hq; simp [isRS] at h

theorem pathUp_ok {p : Option (List Nat)} {ts : List Tree} (h : okPar p ts) :
    okPar (pathUp p) ts := by
  cases p with
  | none => trivial
  | some q =>
    show okPar (if q.length ≤ 1 then none else some q.dropLast) ts
    by_cases hl : q.length ≤ 1
    · simp only [hl, if_true]; trivial
    · simp only [hl, if_false]
      exact isRS_dropLast q ts h (by omega)

theorem parentAdd_ok (p : Option (List Nat)) (it : Item) (ts : List Tree) (h : okPar p ts) :
    isRS (parentAdd p it ts).2 (parentAdd p it ts).1 = true ∧
    pathUp (some (parentAdd p it ts).2) = p ∧
    preorderF (parentAdd p it ts).1 = preorderF ts ++ [it] := by
  cases p with
  | none =>
    exact ⟨isRS_append_root it ts, by simp [pathUp, parentAdd], preorderF_append_root it ts⟩
  | some q =>
    have hrs : isRS q ts = true := h
    obtain ⟨t, ht⟩ := isRS_getAt q ts hrs
    have hcnt : kidsCountAt q ts = t.kids.length := by simp [kidsCountAt, ht]
    have hne : q ≠ [] := isRS_ne_nil hrs
    refine ⟨?_, ?_, preorderF_insert_rs it q ts hrs⟩
    · show isRS (q ++ [kidsCountAt q ts]) (insertAtPath q it ts) = true
      rw [hcnt]; exact isRS_insert_extend q it ts t hrs ht
    · show pathUp (some (q ++ [kidsCountAt q ts])) = some q
      have hq1 : 1 ≤ q.length := by
        cases q
        · exact absurd rfl hne
        · simp
      show (if (q ++ [kidsCountAt q ts]).length ≤ 1 then none
            else some (q ++ [kidsCountAt q ts]).dropLast) = some q
      have hcond : ¬ ((q ++ [kidsCountAt q ts]).length ≤ 1) := by
        rw [List.length_append]
        simp only [List.length_cons, List.length_nil]
        omega
      rw [if_neg hcond, List.dropLast_concat]

theorem parseNode_inv (prevP parP : Option (List Nat)) (it : Item) (ts : List Tree)
    (h : INVp (prevP, parP, ts)) :
    ∃ q', (parseNode prevP parP it ts).2.1 = some q' ∧
      isRS q' (parseNode prevP parP it ts).2.2 = true ∧
      (parseNode prevP parP it ts).1 = pathUp (some q') ∧
      preorderF (parseNode prevP parP it ts).2.2 = preorderF ts ++ [it] := by
  cases prevP with
  | none =>
    have h' : parP = none ∧ ts = [] := h
    have hok := parentAdd_ok none it ts trivial
    exact ⟨(parentAdd none it ts).2, rfl, hok.1, by rw [hok.2.1]; exact h'.1, hok.2.2⟩
  | some qp =>
    have h' : isRS qp ts = true ∧ parP = pathUp (some qp) := h
    obtain ⟨hrs, hpar⟩ := h'
    obtain ⟨pt, hget⟩ := isRS_getAt qp ts hrs
    have hok1 : okPar (some qp) ts := hrs
    have hokP : okPar parP ts := by rw [hpar]; exact pathUp_ok hok1
    have hokPP : okPar (pathUp parP) ts := pathUp_ok hokP
    by_cases h1 : pt.data.ident < it.ident
    · have hred : parseNode (some qp) parP it ts
          = (some qp, some (parentAdd (some qp) it ts).2, (parentAdd (some qp) it ts).1) := by
        simp [parseNode, hget, h1]
      have hok := parentAdd_ok (some qp) it ts hok1
      exact ⟨(parentAdd (some qp) it ts).2, by rw [hred], by rw [hred]; exact hok.1,
        by rw [hred]; exact hok.2.1.symm, by rw [hred]; exact hok.2.2⟩
    · by_cases h2 : it.ident < pt.data.ident
      · have hred : parseNode (some qp) parP it ts
            = (pathUp parP, some (parentAdd (pathUp parP) it ts).2,
               (parentAdd (pathUp parP) it ts).1) := by
          simp [parseNode, hget, h1, h2]
        have hok := parentAdd_ok (pathUp parP) it ts hokPP
        exact ⟨(parentAdd (pathUp parP) it ts).2, by rw [hred], by rw [hred]; exact hok.1,
          by rw [hred]; exact hok.2.1.symm, by rw [hred]; exact hok.2.2⟩
      · have hred : parseNode (some qp) parP it ts
            = (parP, some (parentAdd parP it ts).2, (parentAdd parP it ts).1) := by
          simp [parseNode, hget, h1, h2]
        have hok := parentAdd_ok parP it ts hokP
        exact ⟨(parentAdd parP it ts).2, by rw [hred], by rw [hred]; exact hok.1,
          by rw [hred]; exact hok.2.1.symm, by rw [hred]; exact hok.2.2⟩

theorem parseStep_inv (st : PState) (line : List Char) (h : INVp st) :
    INVp (parseStep st line) ∧
    preorderF (parseStep st line).2.2
      = preorderF st.2.2 ++ (if isBlank line then [] else [parseLine line]) := by
  by_cases hb : isBlank line
  · have hstep : parseStep st line = st := by simp [parseStep, hb]
    rw [hstep]
    simpa [hb] using h
  · obtain ⟨q', hq, hrs, hpar', hpre⟩ :=
      parseNode_inv st.1 st.2.1 (parseLine line) st.2.2 (by
        cases st with
        | mk a b => exact h)
    have hstep : parseStep st line
        = ((parseNode st.1 st.2.1 (parseLine line) st.2.2).2.1,
           (parseNode st.1 st.2.1 (parseLine line) st.2.2).1,
           (parseNode st.1 st.2.1 (parseLine line) st.2.2).2.2) := by
      simp [parseStep, hb]
    constructor
    · rw [hstep, hq]
      exact ⟨hrs, hpar'⟩
    · rw [hstep]
      simpa [hb] using hpre

theorem foldl_parse_inv (lines : List (List Char)) : ∀ st : PState, INVp st →
    INVp (lines.foldl parseStep st) ∧
    preorderF (lines.foldl parseStep st).2.2
      = preorderF st.2.2 ++ (lines.filter (fun l => !isBlank l)).map parseLine := by
  induction lines with
  | nil => intro st h; exact ⟨h, by simp⟩
  | cons l ls ih =>
    intro st h
    obtain ⟨hinv', hpre'⟩ := parseStep_inv st l h
    obtain ⟨hinv'', hpre''⟩ := ih (parseStep st l) hinv'
    refine ⟨by simpa using hinv'', ?_⟩
    rw [List.foldl_cons] at *
    rw [hpre'', hpre']
    by_cases hb : isBlank l
    · simp [List.filter_cons, hb]
    · simp [List.filter_cons, hb]

/-- Pre-order traversal of the parsed document lists exactly the classified
non-blank lines, in input order. -/
theorem preorder_parse (lines : List (List Char)) :
    preorderF (Parse lines) = (lines.filter (fun l => !isBlank l)).map parseLine := by
  have h0 : INVp ((none, none, []) : PState) := ⟨rfl, rfl⟩
  have := (foldl_parse_inv lines (none, none, []) h0).2
  simpa [Parse, preorderF] using this

/-- C1: the tree builder in input order — the first node becomes a root; a
deeper node is appended to the preceding node's children (which becomes the
tracked parent); an equally indented node is appended under the tracked
parent (root list when absent); a shallower node is appended under the
tracked parent's own parent, popping exactly one level whatever the dedent
size (root list when that is absent).  In particular indents 0, 4, 0 put the
third node beside the first at the root. -/
theorem C1_tree_builder_attach :
    (∀ (parP : Option (List Nat)) (it : Item) (ts : List Tree),
      parseNode none parP it ts = (parP, some [ts.length], ts ++ [.node it []])) ∧
    (∀ (qp : List Nat) (parP : Option (List Nat)) (it : Item) (ts : List Tree) (pt : Tree),
      getAt qp ts = some pt → pt.data.ident < it.ident →
      parseNode (some qp) parP it ts
          = (some qp, some (qp ++ [pt.kids.length]), insertAtPath qp it ts) ∧
        getAt qp (insertAtPath qp it ts)
          = some (.node pt.data (pt.kids ++ [.node it []]))) ∧
    (∀ (qp : List Nat) (parP : Option (List Nat)) (it : Item) (ts : List Tree) (pt : Tree),
      getAt qp ts = some pt → pt.data.ident = it.ident →
      parseNode (some qp) parP it ts
          = (parP, some (parentAdd parP it ts).2, (parentAdd parP it ts).1)) ∧
    (∀ (qp : List Nat) (parP : Option (List Nat)) (it : Item) (ts : List Tree) (pt : Tree),
      getAt qp ts = some pt → it.ident < pt.data.ident →
      parseNode (some qp) parP it ts
          = (pathUp parP, some (parentAdd (pathUp parP) it ts).2,
             (parentAdd (pathUp parP) it ts).1)) ∧
    (Parse [str "a", str "    b", str "c"]
        = [.node (parseLine (str "a")) [.node (parseLine (str "    b")) []],
           .node (parseLine (str "c")) []]) := by
  refine ⟨?_, ?_, ?_, ?_, ?_⟩
  · intro parP it ts; rfl
  · intro qp parP it ts pt hget h1
    constructor
    · simp [parseNode, hget, h1, parentAdd, kidsCountAt]
    · have := getAt_insertAtPath_self qp it ts pt hget
      cases pt with
      | node d cs => simpa [appendChild, Tree.data, Tree.kids] using this
  · intro qp parP it ts pt hget h1
    simp [parseNode, hget, h1.symm]
  · intro qp parP it ts pt hget h1
    simp [parseNode, hget, h1, Nat.lt_asymm h1]
  · rfl

/-- Concrete instances of the three attachment rules of
`C1_tree_builder_attach` (indent, equal indent, dedent). -/
theorem C1_witness :
    ((Tree.node (sampleText ['a'] 0) []).data.ident < (sampleText ['b'] 4).ident ∧
      parseNode (some [0]) none (sampleText ['b'] 4) [.node (sampleText ['a'] 0) []]
        = (some [0], some [0, 0],
           insertAtPath [0] (sampleText ['b'] 4) [.node (sampleText ['a'] 0) []])) ∧
    ((Tree.node (sampleText ['a'] 0) []).data.ident = (sampleText ['c'] 0).ident ∧
      parseNode (some [0]) none (sampleText ['c'] 0) [.node (sampleText ['a'] 0) []]
        = (none, some (parentAdd none (sampleText ['c'] 0) [.node (sampleText ['a'] 0) []]).2,
           (parentAdd none (sampleText ['c'] 0) [.node (sampleText ['a'] 0) []]).1)) ∧
    ((sampleText ['c'] 0).ident
        < (Tree.node (sampleText ['b'] 4) []).data.ident ∧
      parseNode (some [0, 0]) (some [0]) (sampleText ['c'] 0)
          [.node (sampleText ['a'] 0) [.node (sampleText ['b'] 4) []]]
        = (pathUp (some [0]),
           some (parentAdd (pathUp (some [0])) (sampleText ['c'] 0)
              [.node (sampleText ['a'] 0) [.node (sampleText ['b'] 4) []]]).2,
           (parentAdd (pathUp (some [0])) (sampleText ['c'] 0)
              [.node (sampleText ['a'] 0) [.node (sampleText ['b'] 4) []]]).1)) :=
  ⟨⟨by decide,
    (C1_tree_builder_attach.2.1 [0] none (sampleText ['b'] 4)
      [.node (sampleText ['a'] 0) []] (.node (sampleText ['a'] 0) []) rfl (by decide)).1⟩,
   ⟨by decide,
    C1_tree_builder_attach.2.2.1 [0] none (sampleText ['c'] 0)
      [.node (sampleText ['a'] 0) []] (.node (sampleText ['a'] 0) []) rfl (by decide)⟩,
   ⟨by decide,
    C1_tree_builder_attach.2.2.2.1 [0, 0] (some [0]) (sampleText ['c'] 0)
      [.node (sampleText ['a'] 0) [.node (sampleText ['b'] 4) []]]
      (.node (sampleText ['b'] 4) []) rfl (by decide)⟩⟩

theorem identOf_no_tab (l : List Char) (ht : '\t' ∉ l) :
    l = List.replicate (identOf 4 l).1 ' ' ++ (identOf 4 l).2 := by
  induction l with
  | nil => rfl
  | cons c cs ih =>
    by_cases hsp : c = ' '
    · subst hsp
      have ih' := ih (fun h => ht (List.mem_cons_of_mem _ h))
      have hred : identOf 4 (' ' :: cs) = ((identOf 4 cs).1 + 1, (identOf 4 cs).2) := rfl
      rw [hred]
      show ' ' :: cs = List.replicate ((identOf 4 cs).1 + 1) ' ' ++ (identOf 4 cs).2
      rw [List.replicate_succ, List.cons_append]
      exact congrArg (' ' :: ·) ih'
    · have htab : ¬ c = '\t' := fun h => ht (h ▸ List.mem_cons_self c cs)
      have hred : identOf 4 (c :: cs) = (0, c :: cs) := by
        simp [identOf, hsp, htab]
      rw [hred]
      rfl

theorem drop_takeWhile_eq (p : Char → Bool) (l : List Char) :
    l.takeWhile p ++ l.drop (l.takeWhile p).length = l := by
  induction l with
  | nil => rfl
  | cons c cs ih =>
    by_cases hp : p c
    · simp only [List.takeWhile_cons, hp, if_true]
      simpa using ih
    · simp [List.takeWhile_cons, hp]

theorem stripTok_append : ∀ (alts : List (List Char)) (cs tok rest : List Char),
    stripTok alts cs = some (tok, rest) → cs = tok ++ rest := by
  intro alts
  induction alts with
  | nil => intro cs tok rest h; simp [stripTok] at h
  | cons t ts ih =>
    intro cs tok rest h
    rw [stripTok] at h
    by_cases hp : t.isPrefixOf cs
    · rw [if_pos hp] at h
      obtain ⟨htok, hrest⟩ := Prod.mk.injEq .. ▸ Option.some.inj h
      have hpre : t <+: cs := List.isPrefixOf_iff_prefix.mp hp
      obtain ⟨u, hu⟩ := hpre
      subst htok
      rw [← hu, List.drop_left] at hrest
      rw [← hu, hrest]
    · rw [if_neg hp] at h
      exact ih cs tok rest h

theorem bracketWs_append (cs tok rest : List Char) (h : bracketWs cs = some (tok, rest)) :
    cs = tok ++ rest := by
  cases cs with
  | nil => simp [bracketWs] at h
  | cons c r0 =>
    rw [bracketWs] at h
    by_cases hc : c = '['
    · rw [if_pos hc] at h
      by_cases he : (r0.takeWhile isGoSpace).isEmpty
      · simp [he] at h
      · simp only [he, if_false, Bool.false_eq_true] at h
        cases hdrop : r0.drop (r0.takeWhile isGoSpace).length with
        | nil => rw [hdrop] at h; simp at h
        | cons d r2 =>
          rw [hdrop] at h
          have h' : (if d = ']'
              then some (('[' :: r0.takeWhile isGoSpace ++ [']'] : List Char), r2)
              else none) = some (tok, rest) := h
          by_cases hd : d = ']'
          · rw [if_pos hd] at h'
            simp only [Option.some.injEq, Prod.mk.injEq] at h'
            obtain ⟨htok, hrest⟩ := h'
            have hsplit := drop_takeWhile_eq isGoSpace r0
            rw [hdrop, hd] at hsplit
            rw [← htok, ← hrest, hc]
            conv_lhs => rw [← hsplit]
            simp
          · rw [if_neg hd] at h'
            simp at h'
    · rw [if_neg hc] at h
      simp at h

theorem matchToken_append (cs tok rest : List Char) (h : matchToken cs = some (tok, rest)) :
    cs = tok ++ rest := by
  rw [matchToken] at h
  cases h1 : stripTok boxTokens cs with
  | some r =>
    rw [h1] at h
    cases r with
    | mk a b =>
      simp only [Option.some.injEq, Prod.mk.injEq] at h
      rw [← h.1, ← h.2]
      exact stripTok_append boxTokens cs a b h1
  | none =>
    rw [h1] at h
    cases h2 : bracketWs cs with
    | some r =>
      rw [h2] at h
      cases r with
      | mk a b =>
        simp only [Option.some.injEq, Prod.mk.injEq] at h
        rw [← h.1, ← h.2]
        exact bracketWs_append cs a b h2
    | none =>
      rw [h2] at h
      cases h3 : stripTok doneTokens cs with
      | some r =>
        rw [h3] at h
        cases r with
        | mk a b =>
          simp only [Option.some.injEq, Prod.mk.injEq] at h
          rw [← h.1, ← h.2]
          exact stripTok_append doneTokens cs a b h3
      | none =>
        rw [h3] at h
        exact stripTok_append cancelTokens cs tok rest h

theorem matchLine_append (cs tok ws txt : List Char)
    (h : matchLine cs = some (tok, ws, txt)) : cs = tok ++ ws ++ txt := by
  rw [matchLine] at h
  cases hm : matchToken cs with
  | none => rw [hm] at h; simp at h
  | some r =>
    rw [hm] at h
    cases r with
    | mk tok0 rest0 =>
      by_cases he : (rest0.takeWhile isGoSpace).isEmpty
      · simp [he] at h
      · simp only [he, if_false, Bool.false_eq_true] at h
        by_cases hn : (rest0.drop (rest0.takeWhile isGoSpace).length).contains '\n'
        · rw [if_pos hn] at h
          simp at h
        · rw [if_neg hn] at h
          simp only [Option.some.injEq, Prod.mk.injEq] at h
          obtain ⟨h1, h2, h3⟩ := h
          have hsplit := drop_takeWhile_eq isGoSpace rest0
          rw [← h1, ← h2, ← h3]
          rw [matchToken_append cs tok0 rest0 hm]
          conv_lhs => rw [← hsplit]
          simp

theorem map_id_of_mem {α : Type} (f : α → α) :
    ∀ (l : List α), (∀ x ∈ l, f x = x) → l.map f = l := by
  intro l
  induction l with
  | nil => intro _; rfl
  | cons a as ih =>
    intro h
    rw [List.map_cons, h a (by simp), ih (fun x hx => h x (by simp [hx]))]

theorem renderLine_id (l : List Char) (ht : '\t' ∉ l)
    (hs : ∀ tok ws txt, matchLine (identOf 4 l).2 = some (tok, ws, txt) → ws = [' ']) :
    renderItemLine (parseLine l) = l := by
  have hdec := identOf_no_tab l ht
  cases hm : matchLine (identOf 4 l).2 with
  | some r =>
    obtain ⟨tok, ws, txt⟩ := r
    have hws := hs tok ws txt hm
    have happ := matchLine_append _ tok ws txt hm
    have hip : parseLine l
        = { ident := (identOf 4 l).1, typ := .itItem, token := tok, text := txt,
            status := tokenStatus tok,
            tags := parseTagList txt ++ parseFmtList txt, offset := 0 } := by
      simp [parseLine, hm]
    rw [hip]
    show List.replicate (identOf 4 l).1 ' ' ++ tok ++ [' '] ++ txt = l
    subst hws
    conv_rhs => rw [hdec, happ]
    simp
  | none =>
    have hip : (parseLine l).typ ≠ .itItem ∧ (parseLine l).ident = (identOf 4 l).1 ∧
        (parseLine l).text = (identOf 4 l).2 := by
      by_cases hti : isTitle (identOf 4 l).2 <;> simp [parseLine, hm, hti]
    rw [renderItemLine, if_neg hip.1, hip.2.1, hip.2.2]
    exact hdec.symm

/-- C2 (amended): viewing the input as its list of scanner lines, parsing
then plain-rendering reproduces the lines exactly, for inputs with no tab
characters, no blank (whitespace-only) lines, and exactly one space between
each Item line's token and its text. -/
theorem C2_roundtrip_amended (lines : List (List Char))
    (hnb : ∀ l ∈ lines, isBlank l = false)
    (ht : ∀ l ∈ lines, '\t' ∉ l)
    (hs : ∀ l ∈ lines, ∀ tok ws txt,
      matchLine (identOf 4 l).2 = some (tok, ws, txt) → ws = [' ']) :
    renderLines (Parse lines) = lines := by
  rw [renderLines, preorder_parse]
  have hfil : lines.filter (fun l => !isBlank l) = lines :=
    List.filter_eq_self.mpr (fun l hl => by simp [hnb l hl])
  rw [hfil, List.map_map]
  exact map_id_of_mem _ lines (fun l hl => renderLine_id l (ht l hl) (hs l hl))

/-- C2 witness: a two-line document, one Item and one deeper Text line,
round-trips through parse and plain render. -/
theorem C2_witness :
    ((∀ l ∈ [str "- a", str "    b"], isBlank l = false) ∧
     (∀ l ∈ [str "- a", str "    b"], '\t' ∉ l)) ∧
    renderLines (Parse [str "- a", str "    b"]) = [str "- a", str "    b"] :=
  ⟨⟨by decide, by decide⟩,
   C2_roundtrip_amended [str "- a", str "    b"] (by decide) (by decide)
     (by
      intro l hl tok ws txt h
      fin_cases hl
      · rw [show matchLine (identOf 4 (str "- a")).2
            = some (['-'], [' '], ['a']) from rfl] at h
        simp only [Option.some.injEq, Prod.mk.injEq] at h
        exact h.2.1.symm
      · rw [show matchLine (identOf 4 (str "    b")).2 = none from rfl] at h
        exact absurd h (by simp))⟩

/-- C2 counterexample: the tab-free input line `-  a` (two spaces after the
token) renders back as `- a`, so parse-then-plain-render differs from the
input even modulo a single trailing blank line. -/
theorem C2_counterexample :
    renderLines (Parse [str "-  a"]) = [str "- a"] ∧
    (str "-  a").contains '\t' = false ∧
    [str "- a"] ≠ [str "-  a"] ∧
    [str "- a"] ≠ [str "-  a"] ++ [([] : List Char)] ∧
    [str "- a"] ++ [([] : List Char)] ≠ [str "-  a"] := by
  refine ⟨rfl, rfl, ?_, ?_, ?_⟩ <;> decide

theorem goAux_exit (text : List Char) (c : Cl) (ofs : Int) (k i j : Nat) (tags : List Tag)
    (hi : ¬ i < text.length) :
    goAux text c ofs (k + 1) i j tags = some [] := by
  simp [goAux, hi]

theorem goAux_nil_emit (text : List Char) (c : Cl) (ofs : Int) (k i j : Nat)
    (hi : i < text.length) :
    goAux text c ofs (k + 1) i j []
      = (slice text j text.length).map fun s => [(c, s)] := by
  simp [goAux, hi]

theorem goAux_intag (text : List Char) (c : Cl) (ofs : Int) (k i j : Nat)
    (t : Tag) (rest : List Tag) (hi : i < text.length)
    (h1 : t.start + ofs ≤ (i : Int)) (h2 : (i : Int) ≤ t.stop + ofs) :
    goAux text c ofs (k + 1) i j (t :: rest)
      = (goAux text c ofs k (t.stop + ofs).toNat (t.stop + ofs).toNat rest).map
          fun l => (tagClr t.typ, t.text) :: l := by
  simp [goAux, hi, h1, h2]

theorem goAux_after (text : List Char) (c : Cl) (ofs : Int) (k i j : Nat)
    (t : Tag) (rest : List Tag) (hi : i < text.length)
    (h0 : t.start + ofs ≤ t.stop + ofs) (h1 : t.stop + ofs < (i : Int)) :
    goAux text c ofs (k + 1) i j (t :: rest) = goAux text c ofs k (i + 1) i rest := by
  have hn1 : ¬ ((i : Int) ≤ t.stop + ofs) := not_le.mpr h1
  have hn2 : ¬ ((i : Int) < t.start + ofs) := not_lt.mpr (le_trans h0 (le_of_lt h1))
  simp [goAux, hi, hn1, hn2]

/-- C3 (amended): a single span whose shifted stop is strictly negative is
discarded without emitting anything, and — provided the text has at least two
characters — the full text is then emitted plainly with the node's attribute
and the render does not fault.  (The bound is genuine: on a one-character
text the discarding iteration consumes the only scan position and the render
emits nothing, and a span shifted past the *end* of the text makes the
renderer fault instead — see the counterexample.) -/
theorem C3_styled_oob_amended (text : List Char) (t : Tag) (c : Cl) (ofs : Int)
    (hse : t.start ≤ t.stop) (he : t.stop + ofs < 0) (h2 : 2 ≤ text.length) :
    colorWithTags text c [t] ofs = some [(c, text)] := by
  rw [colorWithTags, if_neg (by simp)]
  show goAux text c ofs (text.length + 1 + 1) 0 0 [t] = some [(c, text)]
  rw [goAux_after text c ofs (text.length + 1) 0 0 t [] (by omega)
    (by omega) (by push_cast; omega)]
  rw [show text.length + 1 = (text.length - 1) + 1 + 1 by omega]
  rw [goAux_nil_emit text c ofs (text.length - 1 + 1) 1 0 (by omega)]
  rw [show slice text 0 text.length = some text by
    simp [slice]]
  rfl

/-- C3 counterexample: a span shifted past the end of the text makes the
styled render fault (`none` models the Go slice-out-of-range panic of
`text[j:k]` with `k = tag.Start`), instead of being discarded and the full
text emitted plainly as the claim requires. -/
theorem C3_counterexample :
    colorWithTags (str "ab") Cl.clBase [⟨0, 1, .tagNormal, ['a']⟩] 10 = none ∧
    colorWithTags (str "ab") Cl.clBase [⟨0, 1, .tagNormal, ['a']⟩] 10
      ≠ some [(Cl.clBase, str "ab")] := by
  exact ⟨rfl, by decide⟩

/-- C3 witness: the amended statement applied to the text `ab` and a span
shifted to `[-5, -4)`. -/
theorem C3_witness :
    ((0 : Int) ≤ 1 ∧ (1 : Int) + (-5) < 0 ∧ 2 ≤ (str "ab").length) ∧
    colorWithTags (str "ab") Cl.clBase [⟨0, 1, .tagNormal, ['a']⟩] (-5)
      = some [(Cl.clBase, str "ab")] :=
  ⟨⟨by decide, by decide, by decide⟩,
   C3_styled_oob_amended (str "ab") ⟨0, 1, .tagNormal, ['a']⟩ Cl.clBase (-5)
     (by decide) (by decide) (by decide)⟩

/-- C4: on a stream that yields one line and then fails with an I/O error,
`Parse` returns a nil error together with the partially built one-node
document — the scanner's `Err()` is never consulted, so the error is
swallowed rather than propagated, and the claim's "no partial document, error
returned" behaviour does not occur. -/
theorem C4_io_error_swallowed :
    ParseStream ⟨[str "- a"], true⟩ = (Parse [str "- a"], none) ∧
    (Parse [str "- a"]).length = 1 :=
  ⟨rfl, rfl⟩

/-- C7: the line `- [ ] buy milk @today` parses to exactly one node — an
Item with status Pending whose span list is exactly one annotation span of
kind Today with range `[13, 19)` — and that range carves exactly the literal
`@today` out of the node text. -/
theorem C7_today_line :
    Parse [str "- [ ] buy milk @today"]
      = [.node ⟨0, .itItem, ['-'], str "[ ] buy milk @today", .stPending,
           [⟨13, 19, .tagToday, str "@today"⟩], 0⟩ []] ∧
    slice (str "[ ] buy milk @today") 13 19 = some (str "@today") :=
  ⟨rfl, rfl⟩

/-- C5 counterexample: an Item `10. x` reached with the counter at 1.  The
counter advances to 10, so the claim's "new prefix" is the decimal text of
10 — the same two characters the text already carries — and the claimed
offsetDelta is 0; the code instead sets offsetDelta to −1 (the width of the
pre-advance counter minus the width of the existing number) and leaves the
text alone. -/
theorem C5_counterexample :
    numberStep 1 ⟨0, .itItem, ['-'], str "10. x", .stPending, [], 0⟩
      = some (11, ⟨0, .itItem, ['-'], str "10. x", .stPending, [], -1⟩) ∧
    ¬ ((-1 : Int) = ((itoa 10).length : Int) - ((itoa 10).length : Int)) :=
  ⟨rfl, by decide⟩

/-- C5 (amended): for an Item whose text matches `numRe`, with `existing`
the parsed group: the counter never regresses and advances to `existing`
exactly when `existing` exceeds it, and offsetDelta is the width of the
*pre-advance* counter text minus the width of `existing`'s text (so it can
be negative).  For a positive delta the text is rewritten to
`"<counter>." ++ text[len(ns):]` provided the pre-advance counter's width
fits within the text — otherwise the rune slice `r[len(ns):]` panics and the
program crashes; a negative delta leaves the text unchanged (that branch is
commented out in the source); a zero delta rewrites to
`"<counter-after-advance>" ++ text[len(ns):]` under the same slice bound. -/
theorem C5_renumber_amended (num : Nat) (it : Item) (ds : List Char)
    (hty : it.typ = .itItem) (hm : numMatch it.text = some ds) :
    (0 < ((itoa num).length : Int) - ((itoa (atoiDigits ds)).length : Int) →
      ((itoa num).length ≤ it.text.length →
        numberStep num it
          = some ((if num < atoiDigits ds then atoiDigits ds else num) + 1,
              { it with
                text := itoa (if num < atoiDigits ds then atoiDigits ds else num) ++ ['.']
                          ++ it.text.drop (itoa num).length,
                offset := ((itoa num).length : Int)
                            - ((itoa (atoiDigits ds)).length : Int) })) ∧
      (it.text.length < (itoa num).length → numberStep num it = none)) ∧
    (((itoa num).length : Int) - ((itoa (atoiDigits ds)).length : Int) < 0 →
      numberStep num it
        = some ((if num < atoiDigits ds then atoiDigits ds else num) + 1,
            { it with offset := ((itoa num).length : Int)
                                  - ((itoa (atoiDigits ds)).length : Int) })) ∧
    (((itoa num).length : Int) - ((itoa (atoiDigits ds)).length : Int) = 0 →
      (itoa num).length ≤ it.text.length →
      numberStep num it
        = some ((if num < atoiDigits ds then atoiDigits ds else num) + 1,
            { it with
              text := itoa (if num < atoiDigits ds then atoiDigits ds else num)
                        ++ it.text.drop (itoa num).length,
              offset := 0 })) ∧
    num ≤ (if num < atoiDigits ds then atoiDigits ds else num) ∧
    (num < atoiDigits ds → (if num < atoiDigits ds then atoiDigits ds else num) = atoiDigits ds) := by
  refine ⟨?_, ?_, ?_, ?_, ?_⟩
  · intro hpos
    constructor
    · intro hlen
      simp [numberStep, hty, hm, hpos, hlen]
    · intro hgt
      have hnl : ¬ ((itoa num).length ≤ it.text.length) := not_le.mpr hgt
      simp [numberStep, hty, hm, hpos, hnl]
  · intro hneg
    have hnp : ¬ (0 < ((itoa num).length : Int) - ((itoa (atoiDigits ds)).length : Int)) := by
      omega
    simp [numberStep, hty, hm, hnp, hneg]
  · intro h0 hlen
    have hnp : ¬ (0 < ((itoa num).length : Int) - ((itoa (atoiDigits ds)).length : Int)) := by
      omega
    have hnn : ¬ (((itoa num).length : Int) - ((itoa (atoiDigits ds)).length : Int) < 0) := by
      omega
    simp [numberStep, hty, hm, hnp, hnn, hlen, h0]
  · split <;> omega
  · intro h; simp [h]

/-- C5 witness: the amended statement applied to `10. x` at counter 1
reproduces the −1 offset with the text untouched, and applied to `55` at
counter 1001 reproduces the rune-slice panic (`none`). -/
theorem C5_witness :
    (numMatch (str "10. x") = some (str "10") ∧
      numberStep 1 ⟨0, .itItem, ['-'], str "10. x", .stPending, [], 0⟩
        = some (11, ⟨0, .itItem, ['-'], str "10. x", .stPending, [], -1⟩)) ∧
    (numMatch (str "55") = some (str "5") ∧
      numberStep 1001 ⟨0, .itItem, ['-'], str "55", .stPending, [], 0⟩ = none) :=
  ⟨⟨rfl,
    (C5_renumber_amended 1 ⟨0, .itItem, ['-'], str "10. x", .stPending, [], 0⟩
        (str "10") rfl rfl).2.1 (by decide)⟩,
   ⟨rfl,
    ((C5_renumber_amended 1001 ⟨0, .itItem, ['-'], str "55", .stPending, [], 0⟩
        (str "5") rfl rfl).1 (by decide)).2 (by decide)⟩⟩

/-- C6 counterexample: the Item text `1x` has no leading `"<digits>. "`
prefix in the spec's sense, yet nothing is prepended: `numRe`'s unescaped dot
accepts `1` + `x` as an existing prefix, so the node passes through the
renumbering path with its text unchanged and offset 0 (the claim demands
text `1. 1x` with offset 3). -/
theorem C6_counterexample :
    specNumPfx (str "1x") = false ∧
    numberStep 1 ⟨0, .itItem, ['-'], str "1x", .stPending, [], 0⟩
      = some (2, ⟨0, .itItem, ['-'], str "1x", .stPending, [], 0⟩) :=
  ⟨rfl, rfl⟩

/-- C6 (amended): auto-numbering prepends `"<counter>. "` (and sets the
offset to its length) exactly for Item nodes whose text fails `numRe` —
i.e. does not start with a digit followed by at least one further character;
Title/Text nodes pass through untouched with the counter unchanged; and over
the document `- a / (indented) - b / - c` the single counter yields
`1. 2. 3.` across subtrees in traversal order. -/
theorem C6_autonumber_amended :
    (∀ (num : Nat) (it : Item), it.typ = .itItem → numMatch it.text = none →
      numberStep num it
        = some (num + 1, { it with
                           text := itoa num ++ ['.', ' '] ++ it.text,
                           offset := ((itoa num ++ ['.', ' ']).length : Int) })) ∧
    (∀ (num : Nat) (it : Item), ¬ it.typ = .itItem → numberStep num it = some (num, it)) ∧
    ((numberRun 1 (preorderF (Parse [str "- a", str "    - b", str "- c"]))).map
        (fun r => r.2.map Item.text)
      = some [str "1. a", str "2. b", str "3. c"]) := by
  refine ⟨?_, ?_, ?_⟩
  · intro num it hty hm
    simp [numberStep, hty, hm]
  · intro num it hty
    simp [numberStep, hty]
  · rfl

/-- C6 witness: the prepend rule applied at counter 5 to an unprefixed Item. -/
theorem C6_witness :
    numMatch (str "task") = none ∧
    numberStep 5 ⟨0, .itItem, ['-'], str "task", .stPending, [], 0⟩
      = some (6, ⟨0, .itItem, ['-'], itoa 5 ++ ['.', ' '] ++ str "task", .stPending, [],
            ((itoa 5 ++ ['.', ' ']).length : Int)⟩) :=
  ⟨rfl, by
    have h := C6_autonumber_amended.1 5 ⟨0, .itItem, ['-'], str "task", .stPending, [], 0⟩
      rfl rfl
    rw [h]⟩

/-- C10: at scan position `i`, a pending span whose shifted start is at or
before `i` while its shifted stop has not been passed (`i ≤ stop`) emits its
full literal again with the span's attribute — duplicating the characters
already emitted before `i` — whereas a span whose shifted stop lies strictly
before `i` is popped with no output at all.  Concretely, the overlapping
spans `[0,2)`/`[1,3)` on `abc` emit `ab` then `bc`, rendering `b` twice. -/
theorem C10_overlap_emit :
    (∀ (text : List Char) (c : Cl) (ofs : Int) (k i j : Nat) (t : Tag) (rest : List Tag),
      i < text.length → t.start + ofs ≤ (i : Int) → (i : Int) ≤ t.stop + ofs →
      goAux text c ofs (k + 1) i j (t :: rest)
        = (goAux text c ofs k (t.stop + ofs).toNat (t.stop + ofs).toNat rest).map
            fun l => (tagClr t.typ, t.text) :: l) ∧
    (∀ (text : List Char) (c : Cl) (ofs : Int) (k i j : Nat) (t : Tag) (rest : List Tag),
      i < text.length → t.start + ofs ≤ t.stop + ofs → t.stop + ofs < (i : Int) →
      goAux text c ofs (k + 1) i j (t :: rest) = goAux text c ofs k (i + 1) i rest) ∧
    (colorWithTags (str "abc") Cl.clBase
        [⟨0, 2, .tagNormal, str "ab"⟩, ⟨1, 3, .tagNormal, str "bc"⟩] 0
      = some [(Cl.clTag, str "ab"), (Cl.clTag, str "bc")]) := by
  refine ⟨?_, ?_, rfl⟩
  · intro text c ofs k i j t rest hi h1 h2
    exact goAux_intag text c ofs k i j t rest hi h1 h2
  · intro text c ofs k i j t rest hi h0 h1
    exact goAux_after text c ofs k i j t rest hi h0 h1

/-- C10 witness: both loop rules instantiated — the span `[0,1)` re-emitted
at position 0 of `ab`, and a span shifted to `[-5,-4)` popped silently. -/
theorem C10_witness :
    (goAux (str "ab") Cl.clBase 0 3 0 0 [⟨0, 1, .tagNormal, ['a']⟩]
      = (goAux (str "ab") Cl.clBase 0 2 1 1 []).map
          fun l => (Cl.clTag, ['a']) :: l) ∧
    (goAux (str "ab") Cl.clBase (-5) 3 0 0 [⟨0, 1, .tagNormal, ['a']⟩]
      = goAux (str "ab") Cl.clBase (-5) 2 1 0 []) :=
  ⟨C10_overlap_emit.1 (str "ab") Cl.clBase 0 2 0 0 ⟨0, 1, .tagNormal, ['a']⟩ []
     (by decide) (by decide) (by decide),
   C10_overlap_emit.2.1 (str "ab") Cl.clBase (-5) 2 0 0 ⟨0, 1, .tagNormal, ['a']⟩ []
     (by decide) (by decide) (by decide)⟩

theorem takeWhile_eq_self_of_all (p : Char → Bool) :
    ∀ (w : List Char), (∀ c ∈ w, p c = true) → w.takeWhile p = w := by
  intro w
  induction w with
  | nil => intro _; rfl
  | cons a l ih =>
    intro h
    simp [List.takeWhile_cons, h a (by simp),
      ih (fun c hc => h c (List.mem_cons_of_mem _ hc))]

theorem takeWhile_append_stop (p : Char → Bool) (w : List Char) (c0 : Char)
    (rest : List Char) (hall : ∀ c ∈ w, p c = true) (hc0 : p c0 = false) :
    (w ++ c0 :: rest).takeWhile p = w := by
  induction w with
  | nil => simp [List.takeWhile_cons, hc0]
  | cons a l ih =>
    simp [List.takeWhile_cons, hall a (by simp),
      ih (fun c hc => hall c (List.mem_cons_of_mem _ hc))]

theorem not_word_of_space (c : Char) (h : isGoSpace c = true) : isWordChar c = false := by
  simp only [isGoSpace, Bool.or_eq_true, decide_eq_true_eq] at h
  rcases h with (((h | h) | h) | h) | h <;> subst h <;> decide

theorem tagMatchLen_word_end (w : List Char) (hall : ∀ c ∈ w, isWordChar c = true)
    (h2 : 2 ≤ w.length) : tagMatchLen ('@' :: w) = some (1 + w.length) := by
  have hw : w.takeWhile isWordChar = w := takeWhile_eq_self_of_all _ w hall
  have hne : w.isEmpty = false := by
    cases w
    · simp at h2
    · rfl
  simp [tagMatchLen, hw, hne, List.drop_length, parenRun, h2]

theorem tagMatchLen_word_space (w : List Char) (c0 : Char) (rest : List Char)
    (hall : ∀ c ∈ w, isWordChar c = true) (h2 : 2 ≤ w.length)
    (hsp : isGoSpace c0 = true) :
    tagMatchLen ('@' :: (w ++ c0 :: rest)) = some (1 + w.length) := by
  have hw : (w ++ c0 :: rest).takeWhile isWordChar = w :=
    takeWhile_append_stop _ w c0 rest hall (not_word_of_space c0 hsp)
  have hne : (w ++ c0 :: rest).isEmpty = false := by
    cases w <;> rfl
  have hpar : ¬ c0 = '(' := fun h => by subst h; exact absurd hsp (by decide)
  have hdrop : (w ++ c0 :: rest).drop w.length = c0 :: rest := by
    conv_lhs => rw [← hw]
    rw [hw, List.drop_left]
  have hwne : w ≠ [] := by
    cases w
    · simp at h2
    · simp
  simp [tagMatchLen, hw, hne, hdrop, parenRun, hpar, hsp, h2, hwne]

theorem tagMatchLen_single (c : Char) (hc : isWordChar c = true) :
    tagMatchLen ['@', c] = none := by
  have hw : ([c] : List Char).takeWhile isWordChar = [c] := by
    simp [List.takeWhile_cons, hc]
  simp [tagMatchLen, hw, parenRun]

theorem tagMatchLen_no_at (c : Char) (rest : List Char) (hc : ¬ c = '@') :
    tagMatchLen (c :: rest) = none := by
  simp [tagMatchLen, hc]

theorem word_not_at (c : Char) (hc : isWordChar c = true) : ¬ c = '@' :=
  fun h => by subst h; exact absurd hc (by decide)

theorem scanAux_cons_match (mlen : List Char → Option Nat) (k pos : Nat)
    (cs : List Char) (e : Nat) (hm : mlen cs = some e) :
    scanAux mlen (k + 1) pos cs
      = (pos, pos + e, cs.take e) :: scanAux mlen k (pos + e) (cs.drop e) := by
  simp [scanAux, hm]

theorem scanAux_cons_skip (mlen : List Char → Option Nat) (k pos : Nat)
    (c : Char) (rest : List Char) (hm : mlen (c :: rest) = none) :
    scanAux mlen (k + 1) pos (c :: rest) = scanAux mlen k (pos + 1) rest := by
  simp [scanAux, hm]

theorem scanAux_nil_stop (mlen : List Char → Option Nat) (k pos : Nat)
    (hm : mlen [] = none) : scanAux mlen (k + 1) pos [] = [] := by
  simp [scanAux, hm]

/-- C8 counterexample: the bare single-character annotation `@a` at end of
text yields no span — the regexp's suffix group is mandatory and there is no
character left to satisfy it. -/
theorem C8_counterexample :
    parseTagList (str "@a") = [] ∧ isWordChar 'a' = true :=
  ⟨rfl, rfl⟩

/-- C8 (amended): the suffix of `reTag` is mandatory, not optional, so a bare
`@<word>` followed by end of text or whitespace yields an annotation span iff
the word has at least two characters (the word's own last character then
satisfies `\S`); a single-character `@<word>` followed by whitespace or end
of text yields none. -/
theorem C8_tag_suffix_amended :
    (∀ (w : List Char), (∀ c ∈ w, isWordChar c = true) → 2 ≤ w.length →
      parseTagList ('@' :: w)
        = [⟨0, ((1 + w.length : Nat) : Int), tagTypeOf ('@' :: w), '@' :: w⟩]) ∧
    (∀ (w : List Char) (c0 : Char) (rest : List Char),
      (∀ c ∈ w, isWordChar c = true) → 2 ≤ w.length → isGoSpace c0 = true →
      (parseTagList ('@' :: (w ++ c0 :: rest))).head?
        = some ⟨0, ((1 + w.length : Nat) : Int), tagTypeOf ('@' :: w), '@' :: w⟩) ∧
    (∀ (c : Char), isWordChar c = true → parseTagList ['@', c] = []) := by
  refine ⟨?_, ?_, ?_⟩
  · intro w hall h2
    have hm := tagMatchLen_word_end w hall h2
    rw [parseTagList, findSpans]
    rw [show ('@' :: w).length + 1 = w.length + 1 + 1 by simp]
    rw [scanAux_cons_match _ _ 0 _ _ hm]
    have htake : ('@' :: w).take (1 + w.length) = '@' :: w := by
      apply List.take_of_length_le
      simp [Nat.add_comm]
    have hdrop : ('@' :: w).drop (1 + w.length) = [] := by
      apply List.drop_eq_nil_of_le
      simp [Nat.add_comm]
    rw [htake, hdrop]
    rw [show w.length + 1 = w.length + 1 by rfl]
    rw [scanAux_nil_stop _ _ _ rfl]
    simp
  · intro w c0 rest hall h2 hsp
    have hm := tagMatchLen_word_space w c0 rest hall h2 hsp
    rw [parseTagList, findSpans]
    rw [show ('@' :: (w ++ c0 :: rest)).length + 1
        = (w ++ c0 :: rest).length + 1 + 1 by simp]
    rw [scanAux_cons_match _ _ 0 _ _ hm]
    have htake : ('@' :: (w ++ c0 :: rest)).take (1 + w.length) = '@' :: w := by
      rw [Nat.add_comm, List.take_succ_cons]
      congr 1
      exact List.take_left w (c0 :: rest)
    rw [htake]
    simp
  · intro c hc
    have h1 := tagMatchLen_single c hc
    have h2 := tagMatchLen_no_at c [] (word_not_at c hc)
    rw [parseTagList, findSpans]
    rw [show (['@', c] : List Char).length + 1 = 2 + 1 by rfl]
    rw [scanAux_cons_skip _ _ 0 _ _ h1]
    rw [scanAux_cons_skip _ _ 1 _ _ h2]
    rw [scanAux_nil_stop _ _ _ rfl]
    rfl

/-- C8 witness: the amended rule applied to the two-letter word `to` at end
of text produces exactly one Normal span covering `@to`. -/
theorem C8_witness :
    ((∀ c ∈ (str "to"), isWordChar c = true) ∧ 2 ≤ (str "to").length) ∧
    parseTagList ('@' :: str "to")
      = [⟨0, ((1 + (str "to").length : Nat) : Int), tagTypeOf ('@' :: str "to"),
          '@' :: str "to"⟩] :=
  ⟨⟨by decide, by decide⟩,
   C8_tag_suffix_amended.1 (str "to") (by decide) (by decide)⟩

theorem tagMatchLen_ge_one (cs : List Char) (e : Nat) (h : tagMatchLen cs = some e) :
    1 ≤ e := by
  cases cs with
  | nil => simp [tagMatchLen] at h
  | cons c0 rest =>
    rw [tagMatchLen] at h
    by_cases hc : c0 = '@'
    · rw [if_pos hc] at h
      by_cases hw : (rest.takeWhile isWordChar).isEmpty
      · simp [hw] at h
      · simp only [hw, if_false, Bool.false_eq_true] at h
        cases hp : parenRun (rest.drop (rest.takeWhile isWordChar).length) with
        | some m =>
          rw [hp] at h
          have := Option.some.inj h
          omega
        | none =>
          rw [hp] at h
          cases hd : rest.drop (rest.takeWhile isWordChar).length with
          | nil =>
            rw [hd] at h
            have h' : (if 2 ≤ (rest.takeWhile isWordChar).length
                then some (1 + (rest.takeWhile isWordChar).length) else none)
                = some e := h
            by_cases h2 : 2 ≤ (rest.takeWhile isWordChar).length
            · rw [if_pos h2] at h'
              have := Option.some.inj h'; omega
            · rw [if_neg h2] at h'
              simp at h'
          | cons d r2 =>
            rw [hd] at h
            have h' : (if (!isGoSpace d) = true
                then some (1 + (rest.takeWhile isWordChar).length + 1)
                else if 2 ≤ (rest.takeWhile isWordChar).length
                  then some (1 + (rest.takeWhile isWordChar).length) else none)
                = some e := h
            by_cases hgs : (!isGoSpace d) = true
            · rw [if_pos hgs] at h'
              have := Option.some.inj h'; omega
            · rw [if_neg hgs] at h'
              by_cases h2 : 2 ≤ (rest.takeWhile isWordChar).length
              · rw [if_pos h2] at h'
                have := Option.some.inj h'; omega
              · rw [if_neg h2] at h'
                simp at h'
    · rw [if_neg hc] at h
      simp at h

theorem fmtMatchLen_ge_one (cs : List Char) (e : Nat) (h : fmtMatchLen cs = some e) :
    1 ≤ e := by
  cases cs with
  | nil => simp [fmtMatchLen] at h
  | cons c rest =>
    rw [fmtMatchLen] at h
    split at h
    · cases hc : closeLen c rest with
      | none => rw [hc] at h; simp at h
      | some n =>
        rw [hc] at h
        simp only [Option.map_some'] at h
        have := Option.some.inj h
        omega
    · simp at h

theorem scanAux_pos_le (mlen : List Char → Option Nat) :
    ∀ (k pos : Nat) (cs : List Char) (m : Nat × Nat × List Char),
      m ∈ scanAux mlen k pos cs → pos ≤ m.1 := by
  intro k
  induction k with
  | zero => intro pos cs m hm; simp [scanAux] at hm
  | succ k ih =>
    intro pos cs m hm
    cases he : mlen cs with
    | some e =>
      rw [scanAux_cons_match mlen k pos cs e he] at hm
      simp only [List.mem_cons] at hm
      rcases hm with rfl | hm'
      · exact le_refl pos
      · exact le_trans (Nat.le_add_right pos e) (ih (pos + e) (cs.drop e) m hm')
    | none =>
      cases cs with
      | nil =>
        rw [scanAux_nil_stop mlen k pos he] at hm
        simp at hm
      | cons a rest =>
        rw [scanAux_cons_skip mlen k pos a rest he] at hm
        exact le_trans (Nat.le_succ pos) (ih (pos + 1) rest m hm)

theorem scanAux_chain (mlen : List Char → Option Nat)
    (hone : ∀ cs e, mlen cs = some e → 1 ≤ e) :
    ∀ (k pos : Nat) (cs : List Char),
      ((scanAux mlen k pos cs).map (fun m => m.1)).Chain' (· < ·) := by
  intro k
  induction k with
  | zero => intro pos cs; simp [scanAux]
  | succ k ih =>
    intro pos cs
    cases he : mlen cs with
    | some e =>
      rw [scanAux_cons_match mlen k pos cs e he, List.map_cons]
      refine List.chain'_cons'.mpr ⟨?_, ih (pos + e) (cs.drop e)⟩
      intro b hb
      rw [List.head?_map] at hb
      cases hh : (scanAux mlen k (pos + e) (cs.drop e)).head? with
      | none => rw [hh] at hb; simp at hb
      | some m =>
        rw [hh] at hb
        simp only [Option.map_some', Option.mem_def, Option.some.injEq] at hb
        subst hb
        have hmem := List.mem_of_mem_head? hh
        have := scanAux_pos_le mlen k (pos + e) (cs.drop e) m hmem
        have h1 := hone cs e he
        omega
    | none =>
      cases cs with
      | nil =>
        rw [scanAux_nil_stop mlen k pos he]
        simp
      | cons a rest =>
        rw [scanAux_cons_skip mlen k pos a rest he]
        exact ih (pos + 1) rest

/-- C9: the span list of every classified node is the annotation-pass result
followed by the format-pass result; each pass's spans are strictly ascending
by start offset (text order); the two lists are never merged by position —
concretely, on `- *b* @done. now` the format span starting at 0 sits after
the annotation span starting at 4. -/
theorem C9_span_order :
    (∀ line, (parseLine line).tags
        = parseTagList (parseLine line).text ++ parseFmtList (parseLine line).text) ∧
    (∀ text, ((parseTagList text).map Tag.start).Chain' (· < ·)) ∧
    (∀ text, ((parseFmtList text).map Tag.start).Chain' (· < ·)) ∧
    ((parseLine (str "- *b* @done. now")).tags
        = [⟨4, 10, .tagDone, str "@done."⟩, ⟨0, 3, .tagBold, str "*b*"⟩]) := by
  refine ⟨?_, ?_, ?_, rfl⟩
  · intro line; rfl
  · intro text
    have h := scanAux_chain tagMatchLen tagMatchLen_ge_one (text.length + 1) 0 text
    rw [parseTagList, findSpans, List.map_map]
    have hcomp : (Tag.start ∘ fun m : Nat × Nat × List Char =>
        (⟨(m.1 : Int), (m.2.1 : Int), tagTypeOf m.2.2, m.2.2⟩ : Tag))
          = fun m : Nat × Nat × List Char => ((m.1 : Nat) : Int) := rfl
    rw [hcomp]
    rw [show (fun m : Nat × Nat × List Char => ((m.1 : Nat) : Int))
        = (fun n : Nat => (n : Int)) ∘ (fun m : Nat × Nat × List Char => m.1) from rfl]
    rw [← List.map_map]
    rw [List.chain'_map]
    exact h.imp (fun a b hab => by exact_mod_cast hab)
  · intro text
    have h := scanAux_chain fmtMatchLen fmtMatchLen_ge_one (text.length + 1) 0 text
    rw [parseFmtList, findSpans, List.map_map]
    have hcomp : (Tag.start ∘ fun m : Nat × Nat × List Char =>
        (⟨(m.1 : Int), (m.2.1 : Int), formatTagOf m.2.2, m.2.2⟩ : Tag))
          = fun m : Nat × Nat × List Char => ((m.1 : Nat) : Int) := rfl
    rw [hcomp]
    rw [show (fun m : Nat × Nat × List Char => ((m.1 : Nat) : Int))
        = (fun n : Nat => (n : Int)) ∘ (fun m : Nat × Nat × List Char => m.1) from rfl]
    rw [← List.map_map]
    rw [List.chain'_map]
    exact h.imp (fun a b hab => by exact_mod_cast hab)

end Todo
